import Mathlib

/-!
Verification of the SQL query validator (lexer.py / parser.py).

The development shallowly embeds the two-stage pipeline:
the regex-driven lexer `tokenize` and the recursive-descent
parser `Parser.parse_query`, composed by `validate_query`.

Python's anchored regex matching (`re.match` with `re.IGNORECASE`)
is modelled by explicit matcher functions over `List Char`, one per
entry of `TOKEN_PATTERNS`, tried in the source's priority order with
first-match-wins semantics including the backtracking behaviour of
ordered alternation and of the word-boundary assertions.  Character
classes are the ASCII classes written in the source patterns.

The parser's mutable cursor object is modelled as a state record
`PState` threaded through `Except`-returning rule functions; the
Python `while` loops are given explicit fuel `tokens.length + 1`,
which suffices because every loop iteration consumes at least one
token (each body starts with an advance under a cursor-in-range
guard), so the fuel-exhaustion branch is unreachable.
-/

namespace SQLValidator

/-- The single-quote character, used by the string-literal pattern. -/
def squote : Char := Char.ofNat 39

/-- Word characters of the ASCII regex classes (`\w`, boundary checks). -/
def isWordChar (c : Char) : Bool := c.isAlpha || c.isDigit || c == '_'

/-- Whitespace characters of the regex class `\s` (ASCII). -/
def isSpaceChar (c : Char) : Bool :=
  c == ' ' || c == '\t' || c == '\n' || c == '\x0d' || c == '\x0b' || c == '\x0c'

/-- A word boundary holds after a word character when the rest of the
input does not begin with another word character. -/
def boundaryOk : List Char → Bool
  | [] => true
  | c :: _ => !isWordChar c

/-- Case-insensitive literal match of an upper-case pattern word against
the start of the input, as `re.IGNORECASE` does. -/
def ciStartsWith : List Char → List Char → Bool
  | [], _ => true
  | _ :: _, [] => false
  | w :: ws, c :: cs => (Char.toUpper c == w) && ciStartsWith ws cs

/-- Case-sensitive literal match against the start of the input. -/
def litStartsWith : List Char → List Char → Bool
  | [], _ => true
  | _ :: _, [] => false
  | w :: ws, c :: cs => (c == w) && litStartsWith ws cs

/-- Reserved keywords, in the order of the source alternation. -/
def KEYWORDS : List String :=
  ["SELECT", "FROM", "WHERE", "INSERT", "INTO", "VALUES", "UPDATE", "SET",
   "DELETE", "AND", "OR", "NOT", "AS", "JOIN", "ON", "GROUP BY", "ORDER BY",
   "LIMIT", "OFFSET"]

/-- Built-in aggregate function names, in source order. -/
def FUNCTIONS : List String := ["COUNT", "SUM", "AVG", "MIN", "MAX"]

/-- Operators, multi-character first, in source order. -/
def OPERATORS : List String :=
  [">=", "<=", "!=", "==", "=", ">", "<", "+", "-", "*", "/"]

/-- Ordered alternation with a trailing word boundary, as in the pattern
`\b(A|B|...)\b`: the first alternative that matches literally
(case-insensitively) and is followed by a boundary wins; an alternative
whose boundary fails is backtracked past. -/
def matchAlt : List String → List Char → Option Nat
  | [], _ => none
  | w :: ws, s =>
    if ciStartsWith w.toList s && boundaryOk (s.drop w.toList.length) then
      some w.toList.length
    else matchAlt ws s

/-- Ordered alternation without boundaries, as in the operator pattern. -/
def matchAltLit : List String → List Char → Option Nat
  | [], _ => none
  | w :: ws, s =>
    if litStartsWith w.toList s then some w.toList.length
    else matchAltLit ws s

/-- Pattern 1: reserved keywords. -/
def matchKeyword (s : List Char) : Option Nat := matchAlt KEYWORDS s

/-- Pattern 2: aggregate function names. -/
def matchFunctionName (s : List Char) : Option Nat := matchAlt FUNCTIONS s

/-- Pattern 3: operators. -/
def matchOperator (s : List Char) : Option Nat := matchAltLit OPERATORS s

/-- Pattern 4: single-quoted string literal, any run of non-quote
characters between two quotes. -/
def matchStringLit (s : List Char) : Option Nat :=
  match s with
  | [] => none
  | c :: rest =>
    if c == squote then
      match rest.drop (rest.takeWhile (fun d => d != squote)).length with
      | d :: _ =>
        if d == squote then some ((rest.takeWhile (fun d => d != squote)).length + 2)
        else none
      | [] => none
    else none

/-- Pattern 5: numeric literal `\b\d+(\.\d+)?\b`, with the regex
backtracking semantics: a fractional part whose trailing boundary fails
is dropped (the boundary after the integer part is then the dot, which
always satisfies it), while an integer part followed directly by a
letter or underscore fails the whole pattern. -/
def matchNumber (s : List Char) : Option Nat :=
  if (s.takeWhile Char.isDigit).length == 0 then none
  else
    match s.drop (s.takeWhile Char.isDigit).length with
    | [] => some (s.takeWhile Char.isDigit).length
    | c :: r2 =>
      if c == '.' then
        if (r2.takeWhile Char.isDigit).length == 0 then
          some (s.takeWhile Char.isDigit).length
        else if boundaryOk (r2.drop (r2.takeWhile Char.isDigit).length) then
          some ((s.takeWhile Char.isDigit).length + 1 + (r2.takeWhile Char.isDigit).length)
        else some (s.takeWhile Char.isDigit).length
      else if !isWordChar c then some (s.takeWhile Char.isDigit).length
      else none

/-- Pattern 6: parentheses. -/
def matchParen : List Char → Option Nat
  | c :: _ => if c == '(' || c == ')' then some 1 else none
  | [] => none

/-- Pattern 6 (continued): comma. -/
def matchComma : List Char → Option Nat
  | c :: _ => if c == ',' then some 1 else none
  | [] => none

/-- Pattern 6 (continued): semicolon. -/
def matchSemicolon : List Char → Option Nat
  | c :: _ => if c == ';' then some 1 else none
  | [] => none

/-- Pattern 7: dot. -/
def matchDot : List Char → Option Nat
  | c :: _ => if c == '.' then some 1 else none
  | [] => none

/-- Pattern 8: wildcard star (shadowed by the operator pattern). -/
def matchWildcard : List Char → Option Nat
  | c :: _ => if c == '*' then some 1 else none
  | [] => none

/-- Pattern 9: identifier `[a-zA-Z_][a-zA-Z0-9_]*`. -/
def matchIdent : List Char → Option Nat
  | c :: rest =>
    if c.isAlpha || c == '_' then some (1 + (rest.takeWhile isWordChar).length)
    else none
  | [] => none

/-- Pattern 10: whitespace run `\s+` (skipped, producing no token). -/
def matchWhitespace (s : List Char) : Option Nat :=
  if (s.takeWhile isSpaceChar).length == 0 then none
  else some (s.takeWhile isSpaceChar).length

/-- Token kinds of the lexer. -/
inductive TType where
  | KEYWORD | FUNCTION | OPERATOR | STRING | NUMBER | PARENTHESIS
  | COMMA | SEMICOLON | DOT | WILDCARD | IDENTIFIER
deriving DecidableEq, Repr

/-- A token: matched text (upper-cased) and kind. -/
abbrev Token := String × TType

/-- One attempt of the priority-ordered `TOKEN_PATTERNS` list at the
current offset: the first pattern that matches wins, yielding the match
length and the token kind (`none` kind for skipped whitespace). -/
def tryPatterns (s : List Char) : Option (Nat × Option TType) :=
  match matchKeyword s with
  | some n => some (n, some TType.KEYWORD)
  | none =>
  match matchFunctionName s with
  | some n => some (n, some TType.FUNCTION)
  | none =>
  match matchOperator s with
  | some n => some (n, some TType.OPERATOR)
  | none =>
  match matchStringLit s with
  | some n => some (n, some TType.STRING)
  | none =>
  match matchNumber s with
  | some n => some (n, some TType.NUMBER)
  | none =>
  match matchParen s with
  | some n => some (n, some TType.PARENTHESIS)
  | none =>
  match matchComma s with
  | some n => some (n, some TType.COMMA)
  | none =>
  match matchSemicolon s with
  | some n => some (n, some TType.SEMICOLON)
  | none =>
  match matchDot s with
  | some n => some (n, some TType.DOT)
  | none =>
  match matchWildcard s with
  | some n => some (n, some TType.WILDCARD)
  | none =>
  match matchIdent s with
  | some n => some (n, some TType.IDENTIFIER)
  | none =>
  match matchWhitespace s with
  | some n => some (n, none)
  | none => none

/-- A lexical error: offset (into the stripped input) and a short
excerpt of the unconsumed input. -/
structure LexErr where
  position : Nat
  snippet : String
deriving DecidableEq, Repr

/-- The error snippet: next ten characters, newlines replaced. -/
def mkSnippet (s : List Char) : String :=
  String.mk ((s.take 10).map (fun c => if c == '\n' then ' ' else c))

/-- Upper-cased token text, per-character ASCII upper as `str.upper()`. -/
def upperStr (s : String) : String := String.mk (s.toList.map Char.toUpper)

/-- The lexer loop.  The fuel argument makes the recursion structural;
fuel `s.length` always suffices (`tokenizeFuel`) because every pattern
match is non-empty (`tryPatterns_pos`), so the loop advances by at least
one character per iteration. -/
def tokenizeAux : Nat → List Char → Nat → Option (Except LexErr (List Token))
  | _, [], _ => some (.ok [])
  | 0, _ :: _, _ => none
  | fuel + 1, s@(_ :: _), position =>
    match tryPatterns s with
    | none => some (.error ⟨position, mkSnippet s⟩)
    | some (len, ty) =>
      match tokenizeAux fuel (s.drop len) (position + len) with
      | none => none
      | some (.error e) => some (.error e)
      | some (.ok ts) =>
        some (.ok (match ty with
          | some t => (String.mk ((s.take len).map Char.toUpper), t) :: ts
          | none => ts))

/-- `str.strip()`: remove leading and trailing whitespace. -/
def stripList (s : List Char) : List Char :=
  (((s.dropWhile isSpaceChar).reverse.dropWhile isSpaceChar).reverse)

/-- `tokenize`: strip the query, then scan with the ordered patterns;
fail with position and snippet where no pattern matches.  The `none`
fallback is unreachable (`tokenizeFuel`). -/
def tokenize (query : String) : Except LexErr (List Token) :=
  match tokenizeAux (stripList query.toList).length (stripList query.toList) 0 with
  | some r => r
  | none => .error ⟨0, ""⟩

/-- Parser state: the read-only token sequence and the cursor index.
The current token is `tokens[i]` when in range, else the end marker. -/
structure PState where
  tokens : List Token
  i : Nat
deriving DecidableEq, Repr

/-- The current token, or `none` past the end of the stream. -/
def PState.current (st : PState) : Option Token := st.tokens[st.i]?

/-- `_advance`: move the cursor forward by one. -/
def PState.advance (st : PState) : PState := ⟨st.tokens, st.i + 1⟩

/-- Syntactic errors, carrying the information of the source's
`SyntaxError` messages. -/
inductive SynErr where
  | endOfQuery (expected : TType)
  | wrongType (expected : TType) (found : Token)
  | wrongValue (expected : String) (found : String)
  | noStatement (found : String)
  | trailingTokens (found : String)
  | expectedSelectItem
  | expectedFunctionArg
  | expectedValue (found : String)
  | fuelOut
deriving DecidableEq, Repr

/-- `_expect`: check that the current token has the expected type (and,
when given, the expected value up to case); advance on success. -/
def expect (st : PState) (expectedType : TType) (value : Option String) :
    Except SynErr PState :=
  match st.current with
  | none => .error (.endOfQuery expectedType)
  | some (tokenValue, tokenType) =>
    if tokenType ≠ expectedType then
      .error (.wrongType expectedType (tokenValue, tokenType))
    else
      match value with
      | some v =>
        if upperStr tokenValue ≠ upperStr v then .error (.wrongValue v tokenValue)
        else .ok st.advance
      | none => .ok st.advance

/-- `parse_qualified_identifier`: an identifier, optionally followed by
a dot and a second identifier. -/
def parseQualifiedIdentifier (st : PState) : Except SynErr PState := do
  let st ← expect st .IDENTIFIER none
  match st.current with
  | some (_, TType.DOT) => expect st.advance .IDENTIFIER none
  | _ => .ok st

/-- `parse_value`: a number or string advances; an identifier parses as
a qualified identifier; anything else is an error. -/
def parseValue (st : PState) : Except SynErr PState :=
  match st.current with
  | some (_, TType.NUMBER) => .ok st.advance
  | some (_, TType.STRING) => .ok st.advance
  | some (_, TType.IDENTIFIER) => parseQualifiedIdentifier st
  | some (v, _) => .error (.expectedValue v)
  | none => .error (.expectedValue "END OF QUERY")

/-- `parse_comparison`: value, operator, value. -/
def parseComparison (st : PState) : Except SynErr PState := do
  let st ← parseValue st
  let st ← expect st .OPERATOR none
  parseValue st

/-- The `while` loop of `parse_condition`: as long as the current token
text upper-cases to AND or OR, advance and parse another comparison. -/
def condLoop : Nat → PState → Except SynErr PState
  | 0, _ => .error .fuelOut
  | fuel + 1, st =>
    match st.current with
    | some (v, _) =>
      if upperStr v == "AND" || upperStr v == "OR" then do
        let st ← parseComparison st.advance
        condLoop fuel st
      else .ok st
    | none => .ok st

/-- `parse_condition`: a comparison followed by AND/OR comparisons. -/
def parseCondition (st : PState) : Except SynErr PState := do
  let st ← parseComparison st
  condLoop (st.tokens.length + 1) st

/-- The comma loop of `parse_value_list`. -/
def valueListLoop : Nat → PState → Except SynErr PState
  | 0, _ => .error .fuelOut
  | fuel + 1, st =>
    match st.current with
    | some (_, TType.COMMA) => do
      let st ← parseValue st.advance
      valueListLoop fuel st
    | _ => .ok st

/-- `parse_value_list`: comma-separated values. -/
def parseValueList (st : PState) : Except SynErr PState := do
  let st ← parseValue st
  valueListLoop (st.tokens.length + 1) st

/-- The comma loop of `parse_column_list`. -/
def columnListLoop : Nat → PState → Except SynErr PState
  | 0, _ => .error .fuelOut
  | fuel + 1, st =>
    match st.current with
    | some (_, TType.COMMA) => do
      let st ← expect st.advance .IDENTIFIER none
      columnListLoop fuel st
    | _ => .ok st

/-- `parse_column_list`: comma-separated identifiers. -/
def parseColumnList (st : PState) : Except SynErr PState := do
  let st ← expect st .IDENTIFIER none
  columnListLoop (st.tokens.length + 1) st

/-- The comma loop of `parse_assignment_list`. -/
def assignListLoop : Nat → PState → Except SynErr PState
  | 0, _ => .error .fuelOut
  | fuel + 1, st =>
    match st.current with
    | some (_, TType.COMMA) => do
      let st ← expect st.advance .IDENTIFIER none
      let st ← expect st .OPERATOR (some "=")
      let st ← parseValue st
      assignListLoop fuel st
    | _ => .ok st

/-- `parse_assignment_list`: `column = value` pairs, comma-separated. -/
def parseAssignmentList (st : PState) : Except SynErr PState := do
  let st ← expect st .IDENTIFIER none
  let st ← expect st .OPERATOR (some "=")
  let st ← parseValue st
  assignListLoop (st.tokens.length + 1) st

/-- `parse_table_alias_item`: a table name with an optional `AS alias`
or bare-identifier alias. -/
def parseTableAliasItem (st : PState) : Except SynErr PState := do
  let st ← expect st .IDENTIFIER none
  match st.current with
  | some (v, ty) =>
    if upperStr v == "AS" then expect st.advance .IDENTIFIER none
    else if ty == TType.IDENTIFIER then .ok st.advance
    else .ok st
  | none => .ok st

/-- The comma loop of `parse_table_list`. -/
def tableListLoop : Nat → PState → Except SynErr PState
  | 0, _ => .error .fuelOut
  | fuel + 1, st =>
    match st.current with
    | some (_, TType.COMMA) => do
      let st ← parseTableAliasItem st.advance
      tableListLoop fuel st
    | _ => .ok st

/-- `parse_table_list`: comma-separated table references. -/
def parseTableList (st : PState) : Except SynErr PState := do
  let st ← parseTableAliasItem st
  tableListLoop (st.tokens.length + 1) st

/-- `parse_select_item`: a function call `F(... )` with a star or
qualified-identifier argument, or a qualified identifier; then an
optional `AS alias` or bare-identifier alias.  The star argument is
recognised by the token type `WILDCARD` only. -/
def parseSelectItem (st : PState) : Except SynErr PState :=
  (match st.current with
   | some (_, TType.FUNCTION) =>
     expect st.advance .PARENTHESIS (some "(") >>= fun st =>
     (match st.current with
      | some (_, TType.WILDCARD) => Except.ok st.advance
      | some (_, TType.IDENTIFIER) => parseQualifiedIdentifier st
      | _ => Except.error SynErr.expectedFunctionArg) >>= fun st =>
     expect st .PARENTHESIS (some ")")
   | some (_, TType.IDENTIFIER) => parseQualifiedIdentifier st
   | _ => Except.error SynErr.expectedSelectItem) >>= fun st =>
  match st.current with
  | some (v, ty) =>
    if upperStr v == "AS" then expect st.advance .IDENTIFIER none
    else if ty == TType.IDENTIFIER then .ok st.advance
    else .ok st
  | none => .ok st

/-- The comma loop of `parse_select_list`. -/
def selListLoop : Nat → PState → Except SynErr PState
  | 0, _ => .error .fuelOut
  | fuel + 1, st =>
    match st.current with
    | some (_, TType.COMMA) => do
      let st ← parseSelectItem st.advance
      selListLoop fuel st
    | _ => .ok st

/-- `parse_select_list`: a lone `WILDCARD` token, or comma-separated
select items. -/
def parseSelectList (st : PState) : Except SynErr PState :=
  match st.current with
  | some (_, TType.WILDCARD) => .ok st.advance
  | _ => do
    let st ← parseSelectItem st
    selListLoop (st.tokens.length + 1) st

/-- The optional-clause loop of `parse_select_statement`: dispatch on
the upper-cased current token text WHERE, GROUP, ORDER, LIMIT; any
other token ends the loop without error. -/
def optClausesLoop : Nat → PState → Except SynErr PState
  | 0, _ => .error .fuelOut
  | fuel + 1, st =>
    match st.current with
    | none => .ok st
    | some (v, _) =>
      if upperStr v == "WHERE" then do
        let st ← parseCondition st.advance
        optClausesLoop fuel st
      else if upperStr v == "GROUP" then do
        let st ← expect st.advance .KEYWORD (some "BY")
        let st ← parseColumnList st
        optClausesLoop fuel st
      else if upperStr v == "ORDER" then do
        let st ← expect st.advance .KEYWORD (some "BY")
        let st ← parseColumnList st
        optClausesLoop fuel st
      else if upperStr v == "LIMIT" then do
        let st ← parseValue st.advance
        optClausesLoop fuel st
      else .ok st

/-- `parse_select_statement`: SELECT list FROM tables, then the
optional-clause loop. -/
def parseSelectStatement (st : PState) : Except SynErr PState := do
  let st ← expect st .KEYWORD (some "SELECT")
  let st ← parseSelectList st
  let st ← expect st .KEYWORD (some "FROM")
  let st ← parseTableList st
  optClausesLoop (st.tokens.length + 1) st

/-- `parse_insert_statement`. -/
def parseInsertStatement (st : PState) : Except SynErr PState := do
  let st ← expect st .KEYWORD (some "INSERT")
  let st ← expect st .KEYWORD (some "INTO")
  let st ← expect st .IDENTIFIER none
  let st ← expect st .PARENTHESIS (some "(")
  let st ← parseColumnList st
  let st ← expect st .PARENTHESIS (some ")")
  let st ← expect st .KEYWORD (some "VALUES")
  let st ← expect st .PARENTHESIS (some "(")
  let st ← parseValueList st
  expect st .PARENTHESIS (some ")")

/-- `parse_update_statement`. -/
def parseUpdateStatement (st : PState) : Except SynErr PState := do
  let st ← expect st .KEYWORD (some "UPDATE")
  let st ← parseTableAliasItem st
  let st ← expect st .KEYWORD (some "SET")
  let st ← parseAssignmentList st
  match st.current with
  | some (v, _) =>
    if upperStr v == "WHERE" then parseCondition st.advance else .ok st
  | none => .ok st

/-- `parse_delete_statement`. -/
def parseDeleteStatement (st : PState) : Except SynErr PState := do
  let st ← expect st .KEYWORD (some "DELETE")
  let st ← expect st .KEYWORD (some "FROM")
  let st ← parseTableAliasItem st
  match st.current with
  | some (v, _) =>
    if upperStr v == "WHERE" then parseCondition st.advance else .ok st
  | none => .ok st

/-- `parse_query`: empty stream accepted immediately; otherwise dispatch
on the upper-cased first token to a statement parser, consume an
optional semicolon, and reject trailing tokens. -/
def parseQuery (st : PState) : Except SynErr PState :=
  match st.current with
  | none => .ok st
  | some (v, _) =>
    (if upperStr v == "SELECT" then parseSelectStatement st
     else if upperStr v == "INSERT" then parseInsertStatement st
     else if upperStr v == "UPDATE" then parseUpdateStatement st
     else if upperStr v == "DELETE" then parseDeleteStatement st
     else Except.error (SynErr.noStatement (upperStr v))) >>= fun st =>
    (match st.current with
     | some (_, TType.SEMICOLON) => Except.ok st.advance
     | _ => Except.ok st) >>= fun st =>
    match st.current with
    | some (v2, _) => .error (.trailingTokens v2)
    | none => .ok st

/-- Validation outcomes at the core boundary.  A lexical failure is the
`ValueError` raised by `tokenize`; a syntactic failure is the
`SyntaxError` raised by the parser; the internal category is the
defensive catch-all for any other exception. -/
inductive Outcome where
  | Success
  | LexicalFailure (e : LexErr)
  | SyntaxFailure (e : SynErr)
  | InternalFailure
deriving DecidableEq, Repr

/-- `validate_query`: tokenize then parse inside one fault boundary. -/
def validate (query : String) : Outcome :=
  match tokenize query with
  | .error e => .LexicalFailure e
  | .ok tokens =>
    match parseQuery ⟨tokens, 0⟩ with
    | .error e => .SyntaxFailure e
    | .ok _ => .Success

/-- A one-character string holding the single quote, used to write the
test queries that contain string literals. -/
def sq : String := String.mk [squote]

/-- A parser operation preserves the cursor/stream invariant: on
success the cursor has not moved backwards and the token sequence is
unchanged. -/
def PRes (f : PState → Except SynErr PState) : Prop :=
  ∀ st st', f st = .ok st' → st.i ≤ st'.i ∧ st'.tokens = st.tokens

/-- Characters of the operator pattern alternatives (every one of them
also appears as a single-character alternative, except the bang, which
occurs only inside the two-character alternatives). -/
def opChar (c : Char) : Bool :=
  c == '>' || c == '<' || c == '=' || c == '+' || c == '-' || c == '*' || c == '/'

/-- Characters for which a pattern matches at any offset where they
occur first: letters, underscores, digits, whitespace, operator
characters and the single-character syntax elements.  The quote and the
bang are excluded: a lone quote or bang matches no pattern. -/
def safeChar (c : Char) : Bool :=
  c.isAlpha || c == '_' || c.isDigit || isSpaceChar c || opChar c ||
  c == '(' || c == ')' || c == ',' || c == ';' || c == '.'

/-- No digit is immediately followed by a letter or underscore: such a
junction makes the number pattern's trailing boundary fail while the
identifier pattern cannot start at the digit. -/
def noDigitWord : List Char → Bool
  | a :: b :: r => (!(a.isDigit && (b.isAlpha || b == '_'))) && noDigitWord (b :: r)
  | _ => true

/-- A character is matched by some of the ten pattern classes when it
can occur inside some matched token text: word characters (keywords,
function names, numbers, identifiers), operator characters including
the bang of the two-character operators, the quote of string literals,
the single-character syntax elements, and whitespace. -/
def charInClasses (c : Char) : Bool :=
  isWordChar c || opChar c || c == '!' || c == squote ||
  c == '(' || c == ')' || c == ',' || c == ';' || c == '.' || isSpaceChar c

/-! ## Sanity evaluations -/

example : tokenize "SELECT * FROM users;" =
    .ok [("SELECT", .KEYWORD), ("*", .OPERATOR), ("FROM", .KEYWORD),
         ("USERS", .IDENTIFIER), (";", .SEMICOLON)] := by rfl

example : tokenize "GROUP BY x" =
    .ok [("GROUP BY", .KEYWORD), ("X", .IDENTIFIER)] := by rfl

example : tokenize "  1.5 a_b " = .ok [("1.5", .NUMBER), ("A_B", .IDENTIFIER)] := by rfl

example : tokenize "123abc" = .error ⟨0, "123abc"⟩ := by rfl

example : validate "SELECT name, age FROM users;" = .Success := by rfl

example : validate "SELECT * FROM users;" = .SyntaxFailure .expectedSelectItem := by rfl

example : validate "DELETE FROM logs WHERE date < 5;" = .Success := by rfl

example : validate "SELECT name FROM users GROUP BY name;" =
    .SyntaxFailure (.trailingTokens "GROUP BY") := by rfl

example : validate "SELECT name FROM users LIMIT 10 WHERE age > 5;" = .Success := by rfl

example : validate "" = .Success := by rfl

/-! ## Lexer lemmas: progress, fuel sufficiency, error positions -/

theorem matchAlt_pos {alts : List String} {s : List Char} {n : Nat}
    (hw : ∀ w ∈ alts, 0 < w.toList.length) (h : matchAlt alts s = some n) : 0 < n := by
  induction alts with
  | nil => simp [matchAlt] at h
  | cons w ws ih =>
    rw [matchAlt] at h
    split at h
    · exact Option.some.inj h ▸ hw w (List.mem_cons_self _ _)
    · exact ih (fun x hx => hw x (List.mem_cons_of_mem _ hx)) h

theorem matchAltLit_pos {alts : List String} {s : List Char} {n : Nat}
    (hw : ∀ w ∈ alts, 0 < w.toList.length) (h : matchAltLit alts s = some n) : 0 < n := by
  induction alts with
  | nil => simp [matchAltLit] at h
  | cons w ws ih =>
    rw [matchAltLit] at h
    split at h
    · exact Option.some.inj h ▸ hw w (List.mem_cons_self _ _)
    · exact ih (fun x hx => hw x (List.mem_cons_of_mem _ hx)) h

theorem matchStringLit_pos {s : List Char} {n : Nat}
    (h : matchStringLit s = some n) : 0 < n := by
  match s with
  | [] => simp [matchStringLit] at h
  | c :: rest =>
    rw [matchStringLit] at h
    split at h
    · split at h
      · split at h
        · have := Option.some.inj h; omega
        · exact absurd h (by simp)
      · exact absurd h (by simp)
    · exact absurd h (by simp)

theorem matchNumber_pos {s : List Char} {n : Nat}
    (h : matchNumber s = some n) : 0 < n := by
  unfold matchNumber at h
  split at h
  · exact absurd h (by simp)
  · next hd1 =>
    have hpos : (s.takeWhile Char.isDigit).length ≠ 0 := by simpa using hd1
    split at h
    · have := Option.some.inj h; omega
    · split at h
      · split at h
        · have := Option.some.inj h; omega
        · split at h
          · have := Option.some.inj h; omega
          · have := Option.some.inj h; omega
      · split at h
        · have := Option.some.inj h; omega
        · exact absurd h (by simp)

theorem matchParen_pos {s : List Char} {n : Nat} (h : matchParen s = some n) : 0 < n := by
  match s with
  | [] => simp [matchParen] at h
  | c :: _ =>
    rw [matchParen] at h
    split at h
    · exact Option.some.inj h ▸ Nat.one_pos
    · exact absurd h (by simp)

theorem matchComma_pos {s : List Char} {n : Nat} (h : matchComma s = some n) : 0 < n := by
  match s with
  | [] => simp [matchComma] at h
  | c :: _ =>
    rw [matchComma] at h
    split at h
    · exact Option.some.inj h ▸ Nat.one_pos
    · exact absurd h (by simp)

theorem matchSemicolon_pos {s : List Char} {n : Nat} (h : matchSemicolon s = some n) : 0 < n := by
  match s with
  | [] => simp [matchSemicolon] at h
  | c :: _ =>
    rw [matchSemicolon] at h
    split at h
    · exact Option.some.inj h ▸ Nat.one_pos
    · exact absurd h (by simp)

theorem matchDot_pos {s : List Char} {n : Nat} (h : matchDot s = some n) : 0 < n := by
  match s with
  | [] => simp [matchDot] at h
  | c :: _ =>
    rw [matchDot] at h
    split at h
    · exact Option.some.inj h ▸ Nat.one_pos
    · exact absurd h (by simp)

theorem matchWildcard_pos {s : List Char} {n : Nat} (h : matchWildcard s = some n) : 0 < n := by
  match s with
  | [] => simp [matchWildcard] at h
  | c :: _ =>
    rw [matchWildcard] at h
    split at h
    · exact Option.some.inj h ▸ Nat.one_pos
    · exact absurd h (by simp)

theorem matchIdent_pos {s : List Char} {n : Nat} (h : matchIdent s = some n) : 0 < n := by
  match s with
  | [] => simp [matchIdent] at h
  | c :: rest =>
    rw [matchIdent] at h
    split at h
    · have := Option.some.inj h; omega
    · exact absurd h (by simp)

theorem matchWhitespace_pos {s : List Char} {n : Nat}
    (h : matchWhitespace s = some n) : 0 < n := by
  unfold matchWhitespace at h
  split at h
  · exact absurd h (by simp)
  · next hne =>
    have h0 : (s.takeWhile isSpaceChar).length ≠ 0 := by simpa using hne
    have := Option.some.inj h; omega

/-- Every pattern of the ordered matcher list matches only non-empty
prefixes: a successful attempt consumes at least one character. -/
theorem tryPatterns_pos {s : List Char} {len : Nat} {ty : Option TType}
    (h : tryPatterns s = some (len, ty)) : 0 < len := by
  have hkw : ∀ w ∈ KEYWORDS, 0 < w.toList.length := by decide
  have hfn : ∀ w ∈ FUNCTIONS, 0 < w.toList.length := by decide
  have hop : ∀ w ∈ OPERATORS, 0 < w.toList.length := by decide
  unfold tryPatterns at h
  split at h
  · next hm => exact matchAlt_pos hkw ((Prod.mk.injEq .. ▸ Option.some.inj h).1 ▸ hm)
  split at h
  · next hm => exact matchAlt_pos hfn ((Prod.mk.injEq .. ▸ Option.some.inj h).1 ▸ hm)
  split at h
  · next hm => exact matchAltLit_pos hop ((Prod.mk.injEq .. ▸ Option.some.inj h).1 ▸ hm)
  split at h
  · next hm => exact matchStringLit_pos ((Prod.mk.injEq .. ▸ Option.some.inj h).1 ▸ hm)
  split at h
  · next hm => exact matchNumber_pos ((Prod.mk.injEq .. ▸ Option.some.inj h).1 ▸ hm)
  split at h
  · next hm => exact matchParen_pos ((Prod.mk.injEq .. ▸ Option.some.inj h).1 ▸ hm)
  split at h
  · next hm => exact matchComma_pos ((Prod.mk.injEq .. ▸ Option.some.inj h).1 ▸ hm)
  split at h
  · next hm => exact matchSemicolon_pos ((Prod.mk.injEq .. ▸ Option.some.inj h).1 ▸ hm)
  split at h
  · next hm => exact matchDot_pos ((Prod.mk.injEq .. ▸ Option.some.inj h).1 ▸ hm)
  split at h
  · next hm => exact matchWildcard_pos ((Prod.mk.injEq .. ▸ Option.some.inj h).1 ▸ hm)
  split at h
  · next hm => exact matchIdent_pos ((Prod.mk.injEq .. ▸ Option.some.inj h).1 ▸ hm)
  split at h
  · next hm => exact matchWhitespace_pos ((Prod.mk.injEq .. ▸ Option.some.inj h).1 ▸ hm)
  · exact absurd h (by simp)

/-- Fuel equal to the number of remaining characters always suffices:
the scanning loop runs at most once per input character. -/
theorem tokenizeFuel : ∀ (fuel : Nat) (s : List Char) (pos : Nat), s.length ≤ fuel →
    (tokenizeAux fuel s pos).isSome := by
  intro fuel
  induction fuel with
  | zero =>
    intro s pos hs
    have : s = [] := List.eq_nil_of_length_eq_zero (Nat.le_zero.mp hs)
    subst this
    simp [tokenizeAux]
  | succ fuel ih =>
    intro s pos hs
    match s with
    | [] => simp [tokenizeAux]
    | c :: rest =>
      rw [tokenizeAux]
      cases htp : tryPatterns (c :: rest) with
      | none => simp
      | some p =>
        obtain ⟨len, ty⟩ := p
        have hlen : 0 < len := tryPatterns_pos htp
        have hdrop : ((c :: rest).drop len).length ≤ fuel := by
          rw [List.length_drop]
          simp only [List.length_cons] at hs ⊢
          omega
        have hrec := ih ((c :: rest).drop len) (pos + len) hdrop
        cases hr : tokenizeAux fuel ((c :: rest).drop len) (pos + len) with
        | none => rw [hr] at hrec; simp at hrec
        | some r => cases r with
          | error e => simp [hr]
          | ok ts => simp [hr]

/-- Each produced token consumes at least one input character, so the
token sequence is no longer than the scanned character list. -/
theorem tokenizeAux_count : ∀ (fuel : Nat) (s : List Char) (pos : Nat) (ts : List Token),
    tokenizeAux fuel s pos = some (.ok ts) → ts.length ≤ s.length := by
  intro fuel
  induction fuel with
  | zero =>
    intro s pos ts h
    match s with
    | [] =>
      simp only [tokenizeAux, Option.some.injEq, Except.ok.injEq] at h
      subst h; simp
    | c :: rest => simp [tokenizeAux] at h
  | succ fuel ih =>
    intro s pos ts h
    match s with
    | [] =>
      simp only [tokenizeAux, Option.some.injEq, Except.ok.injEq] at h
      subst h; simp
    | c :: rest =>
      rw [tokenizeAux] at h
      split at h
      · simp at h
      · next len ty htp =>
        split at h
        · exact absurd h (by simp)
        · simp at h
        · next ts' hr =>
          have hlen : 0 < len := tryPatterns_pos htp
          have hts' := ih _ _ _ hr
          rw [List.length_drop] at hts'
          simp only [Option.some.injEq, Except.ok.injEq] at h
          subst h
          match ty with
          | some t => simp only [List.length_cons] at hts' ⊢; omega
          | none => simp only [List.length_cons] at hts' ⊢; omega

/-- When the scan fails, the reported position is the offset (from the
starting position) of the place where no pattern matches, and that
place lies strictly inside the remaining input. -/
theorem tokenizeAux_error : ∀ (fuel : Nat) (s : List Char) (pos : Nat) (e : LexErr),
    tokenizeAux fuel s pos = some (.error e) →
    pos ≤ e.position ∧ tryPatterns (s.drop (e.position - pos)) = none ∧
      e.position - pos < s.length := by
  intro fuel
  induction fuel with
  | zero =>
    intro s pos e h
    match s with
    | [] => simp [tokenizeAux] at h
    | c :: rest => simp [tokenizeAux] at h
  | succ fuel ih =>
    intro s pos e h
    match s with
    | [] => simp [tokenizeAux] at h
    | c :: rest =>
      rw [tokenizeAux] at h
      split at h
      · next htp =>
        simp only [Option.some.injEq, Except.error.injEq] at h
        subst h
        exact ⟨Nat.le_refl _, by simpa using htp, by simp⟩
      · next len ty htp =>
        split at h
        · exact absurd h (by simp)
        · next e' hr =>
          simp only [Option.some.injEq, Except.error.injEq] at h
          subst h
          obtain ⟨h1, h2, h3⟩ := ih _ _ _ hr
          have hlen : 0 < len := tryPatterns_pos htp
          rw [List.length_drop] at h3
          refine ⟨by omega, ?_, by simp only [List.length_cons] at h3 ⊢; omega⟩
          rw [List.drop_drop] at h2
          have harith : len + (e'.position - (pos + len)) = e'.position - pos := by omega
          rwa [harith] at h2
        · simp at h

/-! ## Parser invariants: the cursor never moves backwards and the
token sequence is never mutated -/

theorem advance_i (st : PState) : st.advance.i = st.i + 1 := rfl

theorem advance_tokens (st : PState) : st.advance.tokens = st.tokens := rfl

theorem bindE {x : Except SynErr PState} {g : PState → Except SynErr PState} {b : PState}
    (h : x >>= g = Except.ok b) : ∃ a, x = Except.ok a ∧ g a = Except.ok b := by
  cases x with
  | error e => exact absurd h (by intro hh; exact Except.noConfusion hh)
  | ok a => exact ⟨a, rfl, h⟩

theorem expect_ok {st : PState} {ty : TType} {v : Option String} {st' : PState}
    (h : expect st ty v = .ok st') : st' = st.advance := by
  unfold expect at h
  split at h
  · exact absurd h (by simp)
  · split at h
    · exact absurd h (by simp)
    · split at h
      · split at h
        · exact absurd h (by simp)
        · exact (Except.ok.inj h).symm
      · exact (Except.ok.inj h).symm

theorem presExpect (ty : TType) (v : Option String) :
    PRes (fun st => expect st ty v) := by
  intro st st' h
  have := expect_ok h
  subst this
  exact ⟨Nat.le_succ _, rfl⟩

theorem presQualId : PRes parseQualifiedIdentifier := by
  intro st st' h
  unfold parseQualifiedIdentifier at h
  obtain ⟨a, ha, hg⟩ := bindE h
  have := expect_ok ha
  subst this
  split at hg
  · have := expect_ok hg
    subst this
    exact ⟨by simp [advance_i]; omega, rfl⟩
  · have := Except.ok.inj hg
    subst this
    exact ⟨Nat.le_succ _, rfl⟩

theorem presValue : PRes parseValue := by
  intro st st' h
  unfold parseValue at h
  split at h
  · have := Except.ok.inj h; subst this; exact ⟨Nat.le_succ _, rfl⟩
  · have := Except.ok.inj h; subst this; exact ⟨Nat.le_succ _, rfl⟩
  · exact presQualId st st' h
  · exact absurd h (by simp)
  · exact absurd h (by simp)

theorem presComparison : PRes parseComparison := by
  intro st st' h
  unfold parseComparison at h
  obtain ⟨a, ha, h⟩ := bindE h
  obtain ⟨b, hb, h⟩ := bindE h
  obtain ⟨hi1, ht1⟩ := presValue _ _ ha
  have := expect_ok hb
  subst this
  obtain ⟨hi3, ht3⟩ := presValue _ _ h
  constructor
  · simp [advance_i] at hi3; omega
  · rw [ht3, advance_tokens, ht1]

theorem presCondLoop : ∀ fuel, PRes (condLoop fuel) := by
  intro fuel
  induction fuel with
  | zero => intro st st' h; simp [condLoop] at h
  | succ fuel ih =>
    intro st st' h
    rw [condLoop] at h
    split at h
    · split at h
      · obtain ⟨a, ha, h⟩ := bindE h
        obtain ⟨hi1, ht1⟩ := presComparison _ _ ha
        obtain ⟨hi2, ht2⟩ := ih _ _ h
        constructor
        · simp [advance_i] at hi1; omega
        · rw [ht2, ht1, advance_tokens]
      · have := Except.ok.inj h; subst this; exact ⟨Nat.le_refl _, rfl⟩
    · have := Except.ok.inj h; subst this; exact ⟨Nat.le_refl _, rfl⟩

theorem presCondition : PRes parseCondition := by
  intro st st' h
  unfold parseCondition at h
  obtain ⟨a, ha, h⟩ := bindE h
  obtain ⟨hi1, ht1⟩ := presComparison _ _ ha
  obtain ⟨hi2, ht2⟩ := presCondLoop _ _ _ h
  exact ⟨by omega, by rw [ht2, ht1]⟩

theorem presValueListLoop : ∀ fuel, PRes (valueListLoop fuel) := by
  intro fuel
  induction fuel with
  | zero => intro st st' h; simp [valueListLoop] at h
  | succ fuel ih =>
    intro st st' h
    rw [valueListLoop] at h
    split at h
    · obtain ⟨a, ha, h⟩ := bindE h
      obtain ⟨hi1, ht1⟩ := presValue _ _ ha
      obtain ⟨hi2, ht2⟩ := ih _ _ h
      constructor
      · simp [advance_i] at hi1; omega
      · rw [ht2, ht1, advance_tokens]
    · have := Except.ok.inj h; subst this; exact ⟨Nat.le_refl _, rfl⟩

theorem presValueList : PRes parseValueList := by
  intro st st' h
  unfold parseValueList at h
  obtain ⟨a, ha, h⟩ := bindE h
  obtain ⟨hi1, ht1⟩ := presValue _ _ ha
  obtain ⟨hi2, ht2⟩ := presValueListLoop _ _ _ h
  exact ⟨by omega, by rw [ht2, ht1]⟩

theorem presColumnListLoop : ∀ fuel, PRes (columnListLoop fuel) := by
  intro fuel
  induction fuel with
  | zero => intro st st' h; simp [columnListLoop] at h
  | succ fuel ih =>
    intro st st' h
    rw [columnListLoop] at h
    split at h
    · obtain ⟨a, ha, h⟩ := bindE h
      have := expect_ok ha
      subst this
      obtain ⟨hi2, ht2⟩ := ih _ _ h
      constructor
      · simp [advance_i] at hi2; omega
      · rw [ht2, advance_tokens, advance_tokens]
    · have := Except.ok.inj h; subst this; exact ⟨Nat.le_refl _, rfl⟩

theorem presColumnList : PRes parseColumnList := by
  intro st st' h
  unfold parseColumnList at h
  obtain ⟨a, ha, h⟩ := bindE h
  have := expect_ok ha
  subst this
  obtain ⟨hi2, ht2⟩ := presColumnListLoop _ _ _ h
  constructor
  · simp [advance_i] at hi2; omega
  · rw [ht2, advance_tokens]

theorem presAssignListLoop : ∀ fuel, PRes (assignListLoop fuel) := by
  intro fuel
  induction fuel with
  | zero => intro st st' h; simp [assignListLoop] at h
  | succ fuel ih =>
    intro st st' h
    rw [assignListLoop] at h
    split at h
    · obtain ⟨a, ha, h⟩ := bindE h
      have := expect_ok ha
      subst this
      obtain ⟨b, hb, h⟩ := bindE h
      have := expect_ok hb
      subst this
      obtain ⟨c, hc, h⟩ := bindE h
      obtain ⟨hi3, ht3⟩ := presValue _ _ hc
      obtain ⟨hi4, ht4⟩ := ih _ _ h
      constructor
      · simp [advance_i] at hi3; omega
      · rw [ht4, ht3, advance_tokens, advance_tokens, advance_tokens]
    · have := Except.ok.inj h; subst this; exact ⟨Nat.le_refl _, rfl⟩

theorem presAssignmentList : PRes parseAssignmentList := by
  intro st st' h
  unfold parseAssignmentList at h
  obtain ⟨a, ha, h⟩ := bindE h
  have := expect_ok ha
  subst this
  obtain ⟨b, hb, h⟩ := bindE h
  have := expect_ok hb
  subst this
  obtain ⟨c, hc, h⟩ := bindE h
  obtain ⟨hi3, ht3⟩ := presValue _ _ hc
  obtain ⟨hi4, ht4⟩ := presAssignListLoop _ _ _ h
  constructor
  · simp [advance_i] at hi3; omega
  · rw [ht4, ht3, advance_tokens, advance_tokens]

theorem presTableAliasItem : PRes parseTableAliasItem := by
  intro st st' h
  unfold parseTableAliasItem at h
  obtain ⟨a, ha, h⟩ := bindE h
  have := expect_ok ha
  subst this
  split at h
  · split at h
    · have := expect_ok h
      subst this
      exact ⟨by simp [advance_i]; omega, rfl⟩
    · split at h
      · have := Except.ok.inj h; subst this
        exact ⟨by simp [advance_i]; omega, rfl⟩
      · have := Except.ok.inj h; subst this
        exact ⟨Nat.le_succ _, rfl⟩
  · have := Except.ok.inj h; subst this
    exact ⟨Nat.le_succ _, rfl⟩

theorem presTableListLoop : ∀ fuel, PRes (tableListLoop fuel) := by
  intro fuel
  induction fuel with
  | zero => intro st st' h; simp [tableListLoop] at h
  | succ fuel ih =>
    intro st st' h
    rw [tableListLoop] at h
    split at h
    · obtain ⟨a, ha, h⟩ := bindE h
      obtain ⟨hi1, ht1⟩ := presTableAliasItem _ _ ha
      obtain ⟨hi2, ht2⟩ := ih _ _ h
      constructor
      · simp [advance_i] at hi1; omega
      · rw [ht2, ht1, advance_tokens]
    · have := Except.ok.inj h; subst this; exact ⟨Nat.le_refl _, rfl⟩

theorem presTableList : PRes parseTableList := by
  intro st st' h
  unfold parseTableList at h
  obtain ⟨a, ha, h⟩ := bindE h
  obtain ⟨hi1, ht1⟩ := presTableAliasItem _ _ ha
  obtain ⟨hi2, ht2⟩ := presTableListLoop _ _ _ h
  exact ⟨by omega, by rw [ht2, ht1]⟩

theorem presSelectItem : PRes parseSelectItem := by
  intro st st' h
  unfold parseSelectItem at h
  obtain ⟨a, ha, h⟩ := bindE h
  have hstep : st.i ≤ a.i ∧ a.tokens = st.tokens := by
    split at ha
    · obtain ⟨b, hb, ha⟩ := bindE ha
      have := expect_ok hb
      subst this
      obtain ⟨c, hc, ha⟩ := bindE ha
      have hc' : st.advance.advance.i ≤ c.i ∧ c.tokens = st.advance.advance.tokens := by
        split at hc
        · have := Except.ok.inj hc; subst this; exact ⟨Nat.le_succ _, rfl⟩
        · exact presQualId _ _ hc
        · exact absurd hc (by simp)
      have := expect_ok ha
      subst this
      obtain ⟨hci, hct⟩ := hc'
      constructor
      · simp [advance_i] at hci ⊢; omega
      · simp [advance_tokens, hct]
    · exact presQualId _ _ ha
    · exact absurd ha (by simp)
  obtain ⟨hi1, ht1⟩ := hstep
  split at h
  · split at h
    · have := expect_ok h; subst this
      exact ⟨by simp [advance_i]; omega, by simp [advance_tokens, ht1]⟩
    · split at h
      · have := Except.ok.inj h; subst this
        exact ⟨by simp [advance_i]; omega, by simp [advance_tokens, ht1]⟩
      · have := Except.ok.inj h; subst this; exact ⟨by omega, ht1⟩
  · have := Except.ok.inj h; subst this; exact ⟨by omega, ht1⟩

theorem presSelListLoop : ∀ fuel, PRes (selListLoop fuel) := by
  intro fuel
  induction fuel with
  | zero => intro st st' h; simp [selListLoop] at h
  | succ fuel ih =>
    intro st st' h
    rw [selListLoop] at h
    split at h
    · obtain ⟨a, ha, h⟩ := bindE h
      obtain ⟨hi1, ht1⟩ := presSelectItem _ _ ha
      obtain ⟨hi2, ht2⟩ := ih _ _ h
      constructor
      · simp [advance_i] at hi1; omega
      · rw [ht2, ht1, advance_tokens]
    · have := Except.ok.inj h; subst this; exact ⟨Nat.le_refl _, rfl⟩

theorem presSelectList : PRes parseSelectList := by
  intro st st' h
  unfold parseSelectList at h
  split at h
  · have := Except.ok.inj h; subst this; exact ⟨Nat.le_succ _, rfl⟩
  · obtain ⟨a, ha, h⟩ := bindE h
    obtain ⟨hi1, ht1⟩ := presSelectItem _ _ ha
    obtain ⟨hi2, ht2⟩ := presSelListLoop _ _ _ h
    exact ⟨by omega, by rw [ht2, ht1]⟩

theorem presOptClausesLoop : ∀ fuel, PRes (optClausesLoop fuel) := by
  intro fuel
  induction fuel with
  | zero => intro st st' h; simp [optClausesLoop] at h
  | succ fuel ih =>
    intro st st' h
    rw [optClausesLoop] at h
    split at h
    · have := Except.ok.inj h; subst this; exact ⟨Nat.le_refl _, rfl⟩
    · split at h
      · obtain ⟨a, ha, h⟩ := bindE h
        obtain ⟨hi1, ht1⟩ := presCondition _ _ ha
        obtain ⟨hi2, ht2⟩ := ih _ _ h
        constructor
        · simp [advance_i] at hi1; omega
        · rw [ht2, ht1, advance_tokens]
      · split at h
        · obtain ⟨a, ha, h⟩ := bindE h
          have := expect_ok ha
          subst this
          obtain ⟨b, hb, h⟩ := bindE h
          obtain ⟨hi1, ht1⟩ := presColumnList _ _ hb
          obtain ⟨hi2, ht2⟩ := ih _ _ h
          constructor
          · simp [advance_i] at hi1; omega
          · rw [ht2, ht1, advance_tokens, advance_tokens]
        · split at h
          · obtain ⟨a, ha, h⟩ := bindE h
            have := expect_ok ha
            subst this
            obtain ⟨b, hb, h⟩ := bindE h
            obtain ⟨hi1, ht1⟩ := presColumnList _ _ hb
            obtain ⟨hi2, ht2⟩ := ih _ _ h
            constructor
            · simp [advance_i] at hi1; omega
            · rw [ht2, ht1, advance_tokens, advance_tokens]
          · split at h
            · obtain ⟨a, ha, h⟩ := bindE h
              obtain ⟨hi1, ht1⟩ := presValue _ _ ha
              obtain ⟨hi2, ht2⟩ := ih _ _ h
              constructor
              · simp [advance_i] at hi1; omega
              · rw [ht2, ht1, advance_tokens]
            · have := Except.ok.inj h; subst this; exact ⟨Nat.le_refl _, rfl⟩

theorem presSelectStatement : PRes parseSelectStatement := by
  intro st st' h
  unfold parseSelectStatement at h
  obtain ⟨a, ha, h⟩ := bindE h
  have := expect_ok ha
  subst this
  obtain ⟨b, hb, h⟩ := bindE h
  obtain ⟨hi2, ht2⟩ := presSelectList _ _ hb
  obtain ⟨c, hc, h⟩ := bindE h
  have := expect_ok hc
  subst this
  obtain ⟨d, hd, h⟩ := bindE h
  obtain ⟨hi4, ht4⟩ := presTableList _ _ hd
  obtain ⟨hi5, ht5⟩ := presOptClausesLoop _ _ _ h
  constructor
  · have e1 : st.advance.i = st.i + 1 := rfl
    have e2 : b.advance.i = b.i + 1 := rfl
    omega
  · rw [ht5, ht4, advance_tokens, ht2, advance_tokens]

theorem presInsertStatement : PRes parseInsertStatement := by
  intro st st' h
  unfold parseInsertStatement at h
  obtain ⟨a, ha, h⟩ := bindE h
  have := expect_ok ha
  subst this
  obtain ⟨b, hb, h⟩ := bindE h
  have := expect_ok hb
  subst this
  obtain ⟨c, hc, h⟩ := bindE h
  have := expect_ok hc
  subst this
  obtain ⟨d, hd, h⟩ := bindE h
  have := expect_ok hd
  subst this
  obtain ⟨e, he, h⟩ := bindE h
  obtain ⟨hi5, ht5⟩ := presColumnList _ _ he
  obtain ⟨f, hf, h⟩ := bindE h
  have := expect_ok hf
  subst this
  obtain ⟨g, hg, h⟩ := bindE h
  have := expect_ok hg
  subst this
  obtain ⟨k, hk, h⟩ := bindE h
  have := expect_ok hk
  subst this
  obtain ⟨m, hm, h⟩ := bindE h
  obtain ⟨hi9, ht9⟩ := presValueList _ _ hm
  have := expect_ok h
  subst this
  constructor
  · simp [advance_i] at hi5 hi9 ⊢; omega
  · simp [advance_tokens, ht9, ht5]

theorem presUpdateStatement : PRes parseUpdateStatement := by
  intro st st' h
  unfold parseUpdateStatement at h
  obtain ⟨a, ha, h⟩ := bindE h
  have := expect_ok ha
  subst this
  obtain ⟨b, hb, h⟩ := bindE h
  obtain ⟨hi2, ht2⟩ := presTableAliasItem _ _ hb
  obtain ⟨c, hc, h⟩ := bindE h
  have := expect_ok hc
  subst this
  obtain ⟨d, hd, h⟩ := bindE h
  obtain ⟨hi4, ht4⟩ := presAssignmentList _ _ hd
  have hrest : d.i ≤ st'.i ∧ st'.tokens = d.tokens := by
    split at h
    · split at h
      · obtain ⟨hi5, ht5⟩ := presCondition _ _ h
        exact ⟨by simp [advance_i] at hi5; omega, by rw [ht5, advance_tokens]⟩
      · have := Except.ok.inj h; subst this; exact ⟨Nat.le_refl _, rfl⟩
    · have := Except.ok.inj h; subst this; exact ⟨Nat.le_refl _, rfl⟩
  obtain ⟨hi5, ht5⟩ := hrest
  constructor
  · have e1 : st.advance.i = st.i + 1 := rfl
    have e2 : b.advance.i = b.i + 1 := rfl
    omega
  · rw [ht5, ht4, advance_tokens, ht2, advance_tokens]

theorem presDeleteStatement : PRes parseDeleteStatement := by
  intro st st' h
  unfold parseDeleteStatement at h
  obtain ⟨a, ha, h⟩ := bindE h
  have := expect_ok ha
  subst this
  obtain ⟨b, hb, h⟩ := bindE h
  have := expect_ok hb
  subst this
  obtain ⟨c, hc, h⟩ := bindE h
  obtain ⟨hi3, ht3⟩ := presTableAliasItem _ _ hc
  have hrest : c.i ≤ st'.i ∧ st'.tokens = c.tokens := by
    split at h
    · split at h
      · obtain ⟨hi5, ht5⟩ := presCondition _ _ h
        exact ⟨by simp [advance_i] at hi5; omega, by rw [ht5, advance_tokens]⟩
      · have := Except.ok.inj h; subst this; exact ⟨Nat.le_refl _, rfl⟩
    · have := Except.ok.inj h; subst this; exact ⟨Nat.le_refl _, rfl⟩
  obtain ⟨hi5, ht5⟩ := hrest
  constructor
  · simp [advance_i] at hi3; omega
  · rw [ht5, ht3, advance_tokens, advance_tokens]

theorem presParseQuery : PRes parseQuery := by
  intro st st' h
  unfold parseQuery at h
  split at h
  · have := Except.ok.inj h; subst this; exact ⟨Nat.le_refl _, rfl⟩
  · obtain ⟨a, ha, h⟩ := bindE h
    have hstep : st.i ≤ a.i ∧ a.tokens = st.tokens := by
      split at ha
      · exact presSelectStatement _ _ ha
      · split at ha
        · exact presInsertStatement _ _ ha
        · split at ha
          · exact presUpdateStatement _ _ ha
          · split at ha
            · exact presDeleteStatement _ _ ha
            · exact absurd ha (by simp)
    obtain ⟨hi1, ht1⟩ := hstep
    obtain ⟨b, hb, h⟩ := bindE h
    have hstep2 : a.i ≤ b.i ∧ b.tokens = a.tokens := by
      split at hb
      · have := Except.ok.inj hb; subst this; exact ⟨Nat.le_succ _, rfl⟩
      · have := Except.ok.inj hb; subst this; exact ⟨Nat.le_refl _, rfl⟩
    obtain ⟨hi2, ht2⟩ := hstep2
    split at h
    · exact absurd h (by simp)
    · have := Except.ok.inj h; subst this
      exact ⟨by omega, by rw [ht2, ht1]⟩

/-! ## Characters on which the lexer is total -/

theorem andE {a b : Bool} (h : (a && b) = true) : a = true ∧ b = true := by
  simp only [Bool.and_eq_true] at h
  exact h

theorem andI {a b : Bool} (h1 : a = true) (h2 : b = true) : (a && b) = true := by
  simp [h1, h2]

theorem ndw_tail {c : Char} {r : List Char} (h : noDigitWord (c :: r) = true) :
    noDigitWord r = true := by
  match r with
  | [] => rfl
  | b :: t =>
    rw [noDigitWord] at h
    exact (andE h).2

theorem ndw_drop : ∀ (n : Nat) (s : List Char), noDigitWord s = true →
    noDigitWord (s.drop n) = true := by
  intro n
  induction n with
  | zero => intro s h; simpa using h
  | succ n ih =>
    intro s h
    match s with
    | [] => simpa using h
    | c :: r => rw [List.drop_succ_cons]; exact ih r (ndw_tail h)

theorem ndw_append_left : ∀ {a b : List Char}, noDigitWord (a ++ b) = true →
    noDigitWord a = true := by
  intro a
  induction a with
  | nil => intro b _; rfl
  | cons x xs ih =>
    intro b h
    cases xs with
    | nil => rfl
    | cons y r =>
      rw [List.cons_append, List.cons_append, noDigitWord] at h
      obtain ⟨h1, h2⟩ := andE h
      rw [noDigitWord]
      exact andI h1 (ih (b := b) h2)

theorem ndw_append_right : ∀ {a b : List Char}, noDigitWord (a ++ b) = true →
    noDigitWord b = true := by
  intro a
  induction a with
  | nil => intro b h; simpa using h
  | cons x xs ih =>
    intro b h
    rw [List.cons_append] at h
    exact ih (ndw_tail h)

theorem all_of_append_left {p : Char → Bool} {a b : List Char}
    (h : (a ++ b).all p = true) : a.all p = true := by
  rw [List.all_append] at h
  exact (andE h).1

theorem all_of_append_right {p : Char → Bool} {a b : List Char}
    (h : (a ++ b).all p = true) : b.all p = true := by
  rw [List.all_append] at h
  exact (andE h).2

theorem all_drop {p : Char → Bool} {s : List Char} (h : s.all p = true) (n : Nat) :
    (s.drop n).all p = true := by
  rw [List.all_eq_true] at h ⊢
  exact fun x hx => h x (List.drop_subset _ _ hx)

/-- Stripping splits the dropWhile remainder into the stripped core and
the reversed trailing-whitespace run. -/
theorem strip_append (s : List Char) :
    stripList s ++ ((s.dropWhile isSpaceChar).reverse.takeWhile isSpaceChar).reverse
      = s.dropWhile isSpaceChar := by
  unfold stripList
  have h2 := List.takeWhile_append_dropWhile
    (p := isSpaceChar) (l := (s.dropWhile isSpaceChar).reverse)
  have h3 := congrArg List.reverse h2
  rw [List.reverse_append, List.reverse_reverse] at h3
  exact h3

theorem ndw_strip {s : List Char} (h : noDigitWord s = true) :
    noDigitWord (stripList s) = true := by
  have h1 : noDigitWord (s.dropWhile isSpaceChar) = true := by
    have hid := List.takeWhile_append_dropWhile (p := isSpaceChar) (l := s)
    rw [← hid] at h
    exact ndw_append_right h
  rw [← strip_append s] at h1
  exact ndw_append_left h1

theorem all_strip {p : Char → Bool} {s : List Char} (h : s.all p = true) :
    (stripList s).all p = true := by
  have h1 : (s.dropWhile isSpaceChar).all p = true := by
    have hid := List.takeWhile_append_dropWhile (p := isSpaceChar) (l := s)
    rw [← hid] at h
    exact all_of_append_right h
  rw [← strip_append s] at h1
  exact all_of_append_left h1

theorem dropWhile_head_not {q : Char → Bool} : ∀ {l : List Char} {c : Char} {t : List Char},
    l.dropWhile q = c :: t → q c = false := by
  intro l
  induction l with
  | nil => intro c t h; simp [List.dropWhile] at h
  | cons x xs ih =>
    intro c t h
    rw [List.dropWhile_cons] at h
    split at h
    · exact ih h
    · next hq =>
      obtain ⟨h1, -⟩ := List.cons.inj h
      subst h1
      simpa using hq

theorem drop_length_takeWhile {q : Char → Bool} : ∀ (l : List Char),
    l.drop (l.takeWhile q).length = l.dropWhile q := by
  intro l
  induction l with
  | nil => rfl
  | cons x xs ih =>
    cases hq : q x <;>
      simp [List.takeWhile_cons, List.dropWhile_cons, hq, ih]

/-- The character right after a leading digit run is never a letter or
underscore when `noDigitWord` holds. -/
theorem ndw_after_digit_run : ∀ {s : List Char}, noDigitWord s = true →
    (s.takeWhile Char.isDigit).length ≠ 0 →
    ∀ {c : Char} {t : List Char}, s.dropWhile Char.isDigit = c :: t →
    (c.isAlpha || c == '_') = false := by
  intro s
  induction s with
  | nil => intro _ hne; simp [List.takeWhile] at hne
  | cons a r ih =>
    intro hndw hne c t hdw
    have hda : a.isDigit = true := by
      cases hb : a.isDigit with
      | true => rfl
      | false => simp [List.takeWhile_cons, hb] at hne
    simp only [List.dropWhile_cons, hda, if_true] at hdw
    cases r with
    | nil => simp [List.dropWhile] at hdw
    | cons b r' =>
      rw [noDigitWord] at hndw
      obtain ⟨hpair, hndw'⟩ := andE hndw
      cases hb : b.isDigit with
      | true =>
        exact ih hndw' (by simp [List.takeWhile_cons, hb]) hdw
      | false =>
        simp only [List.dropWhile_cons, hb, if_false] at hdw
        obtain ⟨h1, -⟩ := List.cons.inj hdw
        subst h1
        simpa [hda] using hpair

/-- When the whole pattern list fails, every individual matcher that we
need for the totality argument failed. -/
theorem tryPatterns_none {s : List Char} (h : tryPatterns s = none) :
    matchOperator s = none ∧ matchNumber s = none ∧ matchParen s = none ∧
    matchComma s = none ∧ matchSemicolon s = none ∧ matchDot s = none ∧
    matchIdent s = none ∧ matchWhitespace s = none := by
  unfold tryPatterns at h
  split at h
  · exact absurd h (by simp)
  · split at h
    · exact absurd h (by simp)
    · next h2 =>
      split at h
      · exact absurd h (by simp)
      · next h3 =>
        split at h
        · exact absurd h (by simp)
        · next h4 =>
          split at h
          · exact absurd h (by simp)
          · next h5 =>
            split at h
            · exact absurd h (by simp)
            · next h6 =>
              split at h
              · exact absurd h (by simp)
              · next h7 =>
                split at h
                · exact absurd h (by simp)
                · next h8 =>
                  split at h
                  · exact absurd h (by simp)
                  · next h9 =>
                    split at h
                    · exact absurd h (by simp)
                    · next h10 =>
                      split at h
                      · exact absurd h (by simp)
                      · next h11 =>
                        split at h
                        · exact absurd h (by simp)
                        · next h12 =>
                          exact ⟨h3, h5, h6, h7, h8, h9, h11, h12⟩

/-- An ordered literal alternation succeeds as soon as some alternative
matches. -/
theorem matchAltLit_ne_none {alts : List String} {s : List Char}
    (hex : ∃ w ∈ alts, litStartsWith w.toList s = true) :
    matchAltLit alts s ≠ none := by
  induction alts with
  | nil => simp at hex
  | cons w ws ih =>
    rw [matchAltLit]
    split
    · simp
    · next hw =>
      obtain ⟨w', hw', hmatch⟩ := hex
      rcases List.mem_cons.mp hw' with rfl | hmem
      · exact absurd hmatch hw
      · exact ih ⟨w', hmem, hmatch⟩

/-- With `noDigitWord`, the number pattern matches at any offset whose
first character is a digit. -/
theorem matchNumber_some_of_digit {c : Char} {rest : List Char}
    (hd : c.isDigit = true) (hndw : noDigitWord (c :: rest) = true) :
    matchNumber (c :: rest) ≠ none := by
  intro hnone
  unfold matchNumber at hnone
  rw [drop_length_takeWhile] at hnone
  split at hnone
  · next hzero => simp [List.takeWhile_cons, hd] at hzero
  · split at hnone
    · simp at hnone
    · next c' r2 hdw =>
      split at hnone
      · split at hnone
        · simp at hnone
        · split at hnone
          · simp at hnone
          · simp at hnone
      · split at hnone
        · simp at hnone
        · next hword =>
          have h1 : c'.isDigit = false := dropWhile_head_not hdw
          have h2 : (c'.isAlpha || c' == '_') = false :=
            ndw_after_digit_run hndw (by simp [List.takeWhile_cons, hd]) hdw
          rw [Bool.or_eq_false_iff] at h2
          simp [isWordChar, h1, h2.1, h2.2] at hword

/-- At any offset whose first character is safe (and, for digits, under
the `noDigitWord` side condition) some pattern of the ordered list
matches. -/
theorem tryPatterns_some_of_safe {c : Char} {rest : List Char}
    (hsafe : safeChar c = true) (hndw : noDigitWord (c :: rest) = true) :
    (tryPatterns (c :: rest)).isSome = true := by
  cases htp : tryPatterns (c :: rest) with
  | some p => rfl
  | none =>
    exfalso
    obtain ⟨hop, hnum, hpar, hcom, hsem, hdot, hid, hws⟩ := tryPatterns_none htp
    unfold safeChar at hsafe
    simp only [Bool.or_eq_true] at hsafe
    rcases hsafe with ((((((((ha | hu) | hdig) | hsp) | hopc) | hp1) | hp2) | hc1) | hs1) | hd1
    · rw [matchIdent] at hid
      simp [ha] at hid
    · rw [matchIdent] at hid
      simp [hu] at hid
    · exact matchNumber_some_of_digit hdig hndw hnum
    · unfold matchWhitespace at hws
      rw [List.takeWhile_cons] at hws
      simp [hsp] at hws
    · refine matchAltLit_ne_none ?_ hop
      unfold opChar at hopc
      simp only [Bool.or_eq_true] at hopc
      rcases hopc with ((((((h | h) | h) | h) | h) | h) | h)
      · exact ⟨">", by simp [OPERATORS], by simp [litStartsWith, h]⟩
      · exact ⟨"<", by simp [OPERATORS], by simp [litStartsWith, h]⟩
      · exact ⟨"=", by simp [OPERATORS], by simp [litStartsWith, h]⟩
      · exact ⟨"+", by simp [OPERATORS], by simp [litStartsWith, h]⟩
      · exact ⟨"-", by simp [OPERATORS], by simp [litStartsWith, h]⟩
      · exact ⟨"*", by simp [OPERATORS], by simp [litStartsWith, h]⟩
      · exact ⟨"/", by simp [OPERATORS], by simp [litStartsWith, h]⟩
    · rw [matchParen] at hpar
      simp [hp1] at hpar
    · rw [matchParen] at hpar
      simp [hp2] at hpar
    · rw [matchComma] at hcom
      simp [hc1] at hcom
    · rw [matchSemicolon] at hsem
      simp [hs1] at hsem
    · rw [matchDot] at hdot
      simp [hd1] at hdot

/-- Totality of the scanning loop on safe inputs. -/
theorem tokenizeAux_total_safe : ∀ (fuel : Nat) (s : List Char) (pos : Nat),
    s.length ≤ fuel → s.all safeChar = true → noDigitWord s = true →
    ∃ ts, tokenizeAux fuel s pos = some (.ok ts) := by
  intro fuel
  induction fuel with
  | zero =>
    intro s pos hlen _ _
    have : s = [] := List.eq_nil_of_length_eq_zero (Nat.le_zero.mp hlen)
    subst this
    exact ⟨[], rfl⟩
  | succ fuel ih =>
    intro s pos hlen hall hndw
    match s with
    | [] => exact ⟨[], rfl⟩
    | c :: rest =>
      have hsafe : safeChar c = true := by
        rw [List.all_cons] at hall
        exact (andE hall).1
      have hsome := tryPatterns_some_of_safe hsafe hndw
      cases htp : tryPatterns (c :: rest) with
      | none => rw [htp] at hsome; simp at hsome
      | some p =>
        obtain ⟨len, ty⟩ := p
        have hlen1 : 0 < len := tryPatterns_pos htp
        have hdall := all_drop hall len
        have hdndw := ndw_drop len _ hndw
        have hdlen : ((c :: rest).drop len).length ≤ fuel := by
          rw [List.length_drop]
          simp only [List.length_cons] at hlen ⊢
          omega
        obtain ⟨ts, hts⟩ := ih _ (pos + len) hdlen hdall hdndw
        cases ty with
        | some t =>
          exact ⟨(String.mk (((c :: rest).take len).map Char.toUpper), t) :: ts,
            by simp only [tokenizeAux, htp, hts]⟩
        | none => exact ⟨ts, by simp only [tokenizeAux, htp, hts]⟩

/-- Totality of `tokenize` on safe inputs. -/
theorem tokenize_total_safe (q : String) (hall : q.toList.all safeChar = true)
    (hndw : noDigitWord q.toList = true) : ∃ ts, tokenize q = .ok ts := by
  obtain ⟨ts, hts⟩ := tokenizeAux_total_safe (stripList q.toList).length
    (stripList q.toList) 0 (Nat.le_refl _) (all_strip hall) (ndw_strip hndw)
  exact ⟨ts, by rw [tokenize, hts]⟩

/-- A lexical error carries the exact offset, within the stripped
input, of the first place where no pattern matches. -/
theorem tokenize_error_position (q : String) (e : LexErr)
    (h : tokenize q = .error e) :
    tryPatterns ((stripList q.toList).drop e.position) = none ∧
      e.position < (stripList q.toList).length := by
  have hfuel := tokenizeFuel (stripList q.toList).length (stripList q.toList) 0
    (Nat.le_refl _)
  rw [tokenize] at h
  cases hr : tokenizeAux (stripList q.toList).length (stripList q.toList) 0 with
  | none => rw [hr] at hfuel; simp at hfuel
  | some r =>
    rw [hr] at h
    cases r with
    | ok ts => simp at h
    | error e' =>
      have he : e' = e := Except.error.inj h
      subst he
      obtain ⟨-, h2, h3⟩ := tokenizeAux_error _ _ _ _ hr
      simpa using ⟨h2, h3⟩

/-! ## Remaining helper definitions and lemmas for the claims -/

theorem dropWhile_eq_nil_of_all {p : Char → Bool} {s : List Char}
    (h : s.all p = true) : s.dropWhile p = [] := by
  induction s with
  | nil => rfl
  | cons x xs ih =>
    rw [List.all_cons] at h
    obtain ⟨h1, h2⟩ := andE h
    simp [List.dropWhile_cons, h1, ih h2]

theorem strip_of_all_space {q : String} (h : q.toList.all isSpaceChar = true) :
    stripList q.toList = [] := by
  unfold stripList
  rw [dropWhile_eq_nil_of_all h]
  rfl

/-! ## The claims -/

/-- C1.  The claim states that `validate "SELECT * FROM users;"`
returns Success, the select-list path treating the operator-tagged star
as the wildcard by position.  The code does not: the lexer tags `*` as
an OPERATOR token (the operator pattern precedes the wildcard pattern),
while `parse_select_list` and `parse_select_item` test for the token
type WILDCARD, so the query is rejected with the select-item error.
This theorem evaluates the code at the failing input. -/
theorem c1_star_eval :
    tokenize "SELECT * FROM users;" =
      .ok [("SELECT", .KEYWORD), ("*", .OPERATOR), ("FROM", .KEYWORD),
           ("USERS", .IDENTIFIER), (";", .SEMICOLON)] ∧
    validate "SELECT * FROM users;" = .SyntaxFailure .expectedSelectItem :=
  ⟨rfl, rfl⟩

/-- C2.  The claim states that the clause-rich SELECT test query
returns Success.  The code rejects it: parsing fails at the `COUNT(*)`
argument because the star is an OPERATOR token while the parser wants
the WILDCARD type (and, independently, `GROUP BY` / `ORDER BY` lex as
single keyword tokens that the optional-clause loop never dispatches
on).  This theorem evaluates the code at the failing input. -/
theorem c2_clauses_eval :
    validate ("SELECT u.name, COUNT(*) AS total FROM users u " ++
      "WHERE u.age > 25 GROUP BY u.name ORDER BY total LIMIT 10;") =
      .SyntaxFailure .expectedFunctionArg := by
  rfl

/-- C3.  `validate` returns a Lexical failure exactly when `tokenize`
fails, a Syntax failure exactly when tokenization succeeds and
`parse_query` fails on the resulting tokens, Success exactly when both
stages complete, and the Internal category is unreachable from these
two stages. -/
theorem c3_fault_categories : ∀ q : String,
    ((∃ e, validate q = .LexicalFailure e) ↔ (∃ e, tokenize q = .error e)) ∧
    ((∃ e, validate q = .SyntaxFailure e) ↔
      (∃ ts e, tokenize q = .ok ts ∧ parseQuery ⟨ts, 0⟩ = .error e)) ∧
    (validate q = .Success ↔
      (∃ ts st, tokenize q = .ok ts ∧ parseQuery ⟨ts, 0⟩ = .ok st)) ∧
    validate q ≠ .InternalFailure := by
  intro q
  cases htok : tokenize q with
  | error e =>
    refine ⟨?_, ?_, ?_, ?_⟩ <;> simp [validate, htok]
  | ok ts =>
    cases hp : parseQuery ⟨ts, 0⟩ with
    | error e => refine ⟨?_, ?_, ?_, ?_⟩ <;> simp [validate, htok, hp]
    | ok st => refine ⟨?_, ?_, ?_, ?_⟩ <;> simp [validate, htok, hp]

/-- C3 witness: a closed instance of the unreachable-Internal part. -/
theorem c3_fault_categories_w : validate "" ≠ .InternalFailure :=
  (c3_fault_categories "").2.2.2

/-- C4 counterexample.  The claim asserts that `tokenize` succeeds on
every input whose characters are all matched by the ten pattern
classes.  The input `123abc` consists only of digits and letters
(matched by the NUMBER and IDENTIFIER classes), yet tokenization fails
at offset 0: the number pattern's trailing word boundary fails before
the letter `a` and the identifier pattern cannot start at a digit. -/
theorem c4_counterexample :
    ("123abc".toList.all charInClasses = true) ∧
    tokenize "123abc" = .error ⟨0, "123abc"⟩ :=
  ⟨by decide, rfl⟩

/-- C4 (amended).  Tokenization is total on inputs drawn from the
pattern alphabet without the quote and the bang and with no digit
immediately followed by a letter or underscore; a lexical failure
reports the exact offset, within the whitespace-stripped input, of the
first position where no pattern matches; on the spec's example the `$`
is reported at its exact offset 36. -/
theorem c4_lexical_totality_and_position :
    (∀ q : String, q.toList.all safeChar = true → noDigitWord q.toList = true →
      ∃ ts, tokenize q = .ok ts) ∧
    (∀ q e, tokenize q = .error e → validate q = .LexicalFailure e ∧
      tryPatterns ((stripList q.toList).drop e.position) = none ∧
      e.position < (stripList q.toList).length) ∧
    validate "SELECT * FROM table WHERE column = 5$;" = .LexicalFailure ⟨36, "$;"⟩ := by
  refine ⟨tokenize_total_safe, ?_, rfl⟩
  intro q e h
  exact ⟨by simp [validate, h], (tokenize_error_position q e h).1,
    (tokenize_error_position q e h).2⟩

/-- C4 witness: closed instances of the totality part and of the
error-position part. -/
theorem c4_lexical_totality_and_position_w :
    (∃ ts, tokenize "SELECT name FROM users;" = .ok ts) ∧
    (validate "$" = .LexicalFailure ⟨0, "$"⟩ ∧
      tryPatterns ((stripList "$".toList).drop 0) = none ∧
      0 < (stripList "$".toList).length) := by
  constructor
  · exact c4_lexical_totality_and_position.1 "SELECT name FROM users;"
      (by decide) (by decide)
  · exact c4_lexical_totality_and_position.2.1 "$" ⟨0, "$"⟩ rfl

/-- C5.  The claim states that WHERE / GROUP BY / ORDER BY / LIMIT are
accepted after the mandatory part in any order and any subset.  Order
insensitivity is real (LIMIT before WHERE is accepted), but a GROUP BY
clause is never accepted: the lexer emits the single token `GROUP BY`,
which matches none of the loop's dispatch values (WHERE, GROUP, ORDER,
LIMIT), so the loop breaks and `parse_query` rejects the remainder as
trailing tokens.  This theorem evaluates the code at both inputs. -/
theorem c5_clause_loop_eval :
    validate "SELECT name FROM users GROUP BY name;" =
      .SyntaxFailure (.trailingTokens "GROUP BY") ∧
    validate "SELECT name FROM users LIMIT 10 WHERE age > 5;" = .Success :=
  ⟨rfl, rfl⟩

/-- C6.  The INSERT test query is accepted: the statement parser
consumes INSERT, INTO, the table identifier, the parenthesised column
list, VALUES and the parenthesised value list in order, and the
trailing semicolon is consumed by `parse_query`. -/
theorem c6_insert_eval :
    validate ("INSERT INTO employees (id, name) VALUES (1, " ++ sq ++
      "Alice" ++ sq ++ ");") = .Success := by
  rfl

/-- C7.  The empty query and every whitespace-only query validate
successfully: stripping leaves nothing, the token sequence is empty,
and `parse_query` accepts an empty stream immediately. -/
theorem c7_empty_success :
    validate "" = .Success ∧
    ∀ q : String, q.toList.all isSpaceChar = true →
      tokenize q = .ok [] ∧ validate q = .Success := by
  refine ⟨rfl, ?_⟩
  intro q hq
  have htok : tokenize q = .ok [] := by
    rw [tokenize, strip_of_all_space hq]
    rfl
  refine ⟨htok, ?_⟩
  rw [validate, htok]
  rfl

/-- C7 witness: a closed instance at a whitespace-only input. -/
theorem c7_empty_success_w : tokenize " " = .ok [] ∧ validate " " = .Success :=
  c7_empty_success.2 " " (by decide)

/-- C8.  `validate` is deterministic and pure: two results of the same
query are identical outcomes (same category, same payload), and the
parser never mutates the token sequence, so no hidden state survives
into a second call. -/
theorem c8_pure_deterministic :
    (∀ (q : String) (o₁ o₂ : Outcome), validate q = o₁ → validate q = o₂ → o₁ = o₂) ∧
    (∀ st st', parseQuery st = .ok st' → st'.tokens = st.tokens) :=
  ⟨fun _ _ _ h1 h2 => by rw [← h1, ← h2],
   fun st st' h => (presParseQuery st st' h).2⟩

/-- C8 witness: a closed instance of both parts. -/
theorem c8_pure_deterministic_w :
    Outcome.Success = Outcome.Success ∧
    (PState.mk [] 0).tokens = (PState.mk [] 0).tokens :=
  ⟨c8_pure_deterministic.1 "" .Success .Success rfl rfl,
   c8_pure_deterministic.2 ⟨[], 0⟩ ⟨[], 0⟩ rfl⟩

/-- C9.  The cursor index is monotone within one parse: `_advance` strictly
increments the index, and every parser operation, `_expect`, every
grammar rule and `parse_query` itself, never decreases it. -/
theorem c9_cursor_monotone :
    (∀ st : PState, st.advance.i = st.i + 1) ∧
    (∀ ty v st st', expect st ty v = .ok st' → st.i ≤ st'.i) ∧
    (∀ st st', parseValue st = .ok st' → st.i ≤ st'.i) ∧
    (∀ st st', parseCondition st = .ok st' → st.i ≤ st'.i) ∧
    (∀ st st', parseColumnList st = .ok st' → st.i ≤ st'.i) ∧
    (∀ st st', parseValueList st = .ok st' → st.i ≤ st'.i) ∧
    (∀ st st', parseAssignmentList st = .ok st' → st.i ≤ st'.i) ∧
    (∀ st st', parseTableList st = .ok st' → st.i ≤ st'.i) ∧
    (∀ st st', parseSelectList st = .ok st' → st.i ≤ st'.i) ∧
    (∀ st st', parseSelectStatement st = .ok st' → st.i ≤ st'.i) ∧
    (∀ st st', parseInsertStatement st = .ok st' → st.i ≤ st'.i) ∧
    (∀ st st', parseUpdateStatement st = .ok st' → st.i ≤ st'.i) ∧
    (∀ st st', parseDeleteStatement st = .ok st' → st.i ≤ st'.i) ∧
    (∀ st st', parseQuery st = .ok st' → st.i ≤ st'.i) :=
  ⟨fun _ => rfl,
   fun ty v st st' h => (presExpect ty v st st' h).1,
   fun st st' h => (presValue st st' h).1,
   fun st st' h => (presCondition st st' h).1,
   fun st st' h => (presColumnList st st' h).1,
   fun st st' h => (presValueList st st' h).1,
   fun st st' h => (presAssignmentList st st' h).1,
   fun st st' h => (presTableList st st' h).1,
   fun st st' h => (presSelectList st st' h).1,
   fun st st' h => (presSelectStatement st st' h).1,
   fun st st' h => (presInsertStatement st st' h).1,
   fun st st' h => (presUpdateStatement st st' h).1,
   fun st st' h => (presDeleteStatement st st' h).1,
   fun st st' h => (presParseQuery st st' h).1⟩

/-- C9 witness: a closed instance of the advance and parse conjuncts. -/
theorem c9_cursor_monotone_w :
    (PState.mk [] 0).advance.i = (PState.mk [] 0).i + 1 ∧
    (PState.mk [] 0).i ≤ (PState.mk [] 0).i :=
  ⟨c9_cursor_monotone.1 ⟨[], 0⟩,
   c9_cursor_monotone.2.2.2.2.2.2.2.2.2.2.2.2.2 ⟨[], 0⟩ ⟨[], 0⟩ rfl⟩

/-- C10.  `tokenize` terminates on every finite input: every pattern
matches only a non-empty prefix, so each loop iteration strictly
advances; fuel equal to the remaining character count never runs out
(the loop runs at most once per input character); and consequently a
successful scan yields at most one token per character. -/
theorem c10_lexer_terminates :
    (∀ (s : List Char) (len : Nat) (ty : Option TType),
      tryPatterns s = some (len, ty) → 0 < len) ∧
    (∀ (fuel : Nat) (s : List Char) (pos : Nat), s.length ≤ fuel →
      (tokenizeAux fuel s pos).isSome = true) ∧
    (∀ (fuel : Nat) (s : List Char) (pos : Nat) (ts : List Token),
      tokenizeAux fuel s pos = some (.ok ts) → ts.length ≤ s.length) :=
  ⟨fun _ _ _ h => tryPatterns_pos h, tokenizeFuel, tokenizeAux_count⟩

/-- C10 witness: closed instances of progress, fuel sufficiency and the
token-count bound. -/
theorem c10_lexer_terminates_w :
    (0 < 6) ∧ (tokenizeAux 0 [] 0).isSome = true ∧
    ([("A", TType.IDENTIFIER)] : List Token).length ≤ (['a'] : List Char).length :=
  ⟨c10_lexer_terminates.1 "SELECT".toList 6 (some .KEYWORD) rfl,
   c10_lexer_terminates.2.1 0 [] 0 (Nat.le_refl 0),
   c10_lexer_terminates.2.2 1 ['a'] 0 [("A", TType.IDENTIFIER)] rfl⟩

end SQLValidator
